import Mathlib

/-!
Verification of the connectivity-grouping BFS (`step_8_grid_analysis` in
`src/advanced/h3_advanced.py`) and of the square-grid comparison oracle
(`square_grid_index` / `square_grid_neighbors` in
`src/performance/hexagon_vs_square_performance.py`).

Cells are opaque identifiers: an arbitrary type `α` with decidable equality.
The adjacency oracle is a function `N : α → List α` (the Python code iterates
over the set returned by `h3.k_ring(current_hex, 1)`; a list models the set
together with its iteration order).
-/

section BFS

variable {α : Type*} [DecidableEq α]

/-- One iteration of the inner `while queue:` loop of `step_8_grid_analysis`
(`h3_advanced.py` lines 293-303).  State is `(queue, unvisited, group)`.
The body pops the front of the queue; if the popped cell is still unvisited it
is added to the group, removed from `unvisited`, and its oracle neighbors that
are still unvisited are appended to the queue; otherwise it is skipped. -/
def bfsStep (N : α → List α) :
    List α × Finset α × Finset α → List α × Finset α × Finset α
  | ([], unvisited, group) => ([], unvisited, group)
  | (c :: rest, unvisited, group) =>
    if c ∈ unvisited then
      (rest ++ (N c).filter (fun b => decide (b ∈ unvisited.erase c)),
        unvisited.erase c, insert c group)
    else (rest, unvisited, group)

/-- The inner BFS loop run to completion: returns the final `(group, unvisited)`
pair.  This is the recursive form of iterating `bfsStep` until the queue is
empty; termination is by the lexicographic measure
`(unvisited.card, queue.length)`. -/
def bfsGroup (N : α → List α) (queue : List α) (unvisited group : Finset α) :
    Finset α × Finset α :=
  match queue with
  | [] => (group, unvisited)
  | c :: rest =>
    if h : c ∈ unvisited then
      bfsGroup N (rest ++ (N c).filter (fun b => decide (b ∈ unvisited.erase c)))
        (unvisited.erase c) (insert c group)
    else
      bfsGroup N rest unvisited group
termination_by (unvisited.card, queue.length)
decreasing_by
  · exact Prod.Lex.left _ _ (Finset.card_erase_lt_of_mem h)
  · exact Prod.Lex.right _ (Nat.lt_succ_self _)

/-- The outer `while unvisited:` loop (`h3_advanced.py` lines 286-306).  The
Python code picks `next(iter(unvisited))` as the next seed; we model the seed
choice deterministically as the first cell of the supplied iteration order
`order` that is still unvisited.  A computed group is appended only when
non-empty (`if group:` in the source). -/
def groupLoop (N : α → List α) : List α → Finset α → List (Finset α)
  | [], _ => []
  | c :: rest, unvisited =>
    if c ∈ unvisited then
      let r := bfsGroup N [c] unvisited ∅
      if r.1 = ∅ then groupLoop N rest r.2 else r.1 :: groupLoop N rest r.2
    else groupLoop N rest unvisited

/-- `step_8_grid_analysis`'s connectivity grouping: `cells` is the input cell
set given with an iteration order, `unvisited` starts as the whole set. -/
def groupCells (N : α → List α) (cells : List α) : List (Finset α) :=
  groupLoop N cells cells.toFinset

/-- Chains inside a cell set `S`: `ReachIn N S a b` holds when there is a
finite chain `a = c₀, c₁, ..., cₙ = b` with every `cᵢ ∈ S` and `c₍ᵢ₊₁₎` an
oracle neighbor of `cᵢ` (the spec's "finite chain `a = c0, ..., cn = b` with
each `c(i+1) ∈ N(c_i) ∩ C`"). -/
inductive ReachIn (N : α → List α) (S : Finset α) : α → α → Prop
  | refl {a : α} : a ∈ S → ReachIn N S a a
  | head {a b c : α} : a ∈ S → b ∈ N a → ReachIn N S b c → ReachIn N S a c

/-- A symmetric (undirected) adjacency oracle, as the hexagonal `k_ring`
oracle of the source is: `b` lists `a` as a neighbor iff `a` lists `b`. -/
def SymmOracle (N : α → List α) : Prop := ∀ a b : α, a ∈ N b ↔ b ∈ N a

end BFS

section SquareGrid

/-- Python `int()` applied to a (real) number: truncation toward zero, i.e.
floor for non-negative arguments and ceiling for negative ones. -/
def truncQ (q : ℚ) : ℤ := if 0 ≤ q then ⌊q⌋ else ⌈q⌉

/-- `grid_size = 0.1 / (2 ** resolution)`
(`hexagon_vs_square_performance.py` line 312). -/
def grid_size (resolution : ℕ) : ℚ := (1 / 10) / 2 ^ resolution

/-- The f-string `f"{grid_x}_{grid_y}_{resolution}"` of `square_grid_index`. -/
def encode3 (grid_x grid_y : ℤ) (resolution : ℕ) : String :=
  grid_x.repr ++ "_" ++ grid_y.repr ++ "_" ++ resolution.repr

/-- `square_grid_index(lat, lng, resolution)`
(`hexagon_vs_square_performance.py` lines 309-317):
`grid_x = int(lng / grid_size)`, `grid_y = int(lat / grid_size)`,
returning `f"{grid_x}_{grid_y}_{resolution}"`.  Geographic coordinates are
modelled as rationals. -/
def square_grid_index (lat lng : ℚ) (resolution : ℕ) : String :=
  encode3 (truncQ (lng / grid_size resolution)) (truncQ (lat / grid_size resolution))
    resolution

/-- The f-string `f"{grid_x + dx}_{grid_y + dy}"` of `square_grid_neighbors`
(note: no resolution component, unlike `encode3`). -/
def encode2 (x y : ℤ) : String := x.repr ++ "_" ++ y.repr

/-- Python `range(-k, k+1)` as a list of integers. -/
def intRange (k : ℕ) : List ℤ :=
  (List.range (2 * k + 1)).map (fun i : ℕ => (i : ℤ) - (k : ℤ))

/-- `square_grid_neighbors(grid_x, grid_y, k)`
(`hexagon_vs_square_performance.py` lines 363-370): all cells at Manhattan
distance at most `k`, appended as `f"{grid_x + dx}_{grid_y + dy}"` strings. -/
def square_grid_neighbors (grid_x grid_y : ℤ) (k : ℕ) : List String :=
  (intRange k).flatMap (fun dx =>
    ((intRange k).filter (fun dy => decide (dx.natAbs + dy.natAbs ≤ k))).map
      (fun dy => encode2 (grid_x + dx) (grid_y + dy)))

end SquareGrid

section Examples

/-- The spec's concrete scenario: cells `A..E` as `0..4` over `Fin 5`, with
undirected edges `A–B`, `B–C`, `D–E`. -/
def exampleOracle : Fin 5 → List (Fin 5)
  | 0 => [1]
  | 1 => [0, 2]
  | 2 => [1]
  | 3 => [4]
  | 4 => [3]

/-- A directed (non-symmetric) oracle: `0` lists `1` as a neighbor but `1`
lists nobody. -/
def directedOracle : ℕ → List ℕ
  | 0 => [1]
  | _ => []

/-- A fan-out oracle: `0` lists `1` and `2`, and `1` lists `2` again, so `2`
can be enqueued twice. -/
def fanoutOracle : ℕ → List ℕ
  | 0 => [1, 2]
  | 1 => [2]
  | _ => []

end Examples

section BFSLemmas

variable {α : Type*} [DecidableEq α] {N : α → List α} {S T U : Finset α}

theorem ReachIn.mem_left {a b : α} (h : ReachIn N S a b) : a ∈ S := by
  cases h with
  | refl h => exact h
  | head h _ _ => exact h

theorem ReachIn.mem_right {a b : α} (h : ReachIn N S a b) : b ∈ S := by
  induction h with
  | refl h => exact h
  | head _ _ _ ih => exact ih

theorem ReachIn.mono {a b : α} (hST : S ⊆ T) (h : ReachIn N S a b) :
    ReachIn N T a b := by
  induction h with
  | refl h => exact ReachIn.refl (hST h)
  | head ha hb _ ih => exact ReachIn.head (hST ha) hb ih

theorem ReachIn.trans {a b c : α} (h₁ : ReachIn N S a b) :
    ReachIn N S b c → ReachIn N S a c := by
  induction h₁ with
  | refl _ => exact id
  | head ha hb _ ih => exact fun h₂ => ReachIn.head ha hb (ih h₂)

theorem ReachIn.tail {a b c : α} (h : ReachIn N S a b) (hc : c ∈ N b)
    (hcS : c ∈ S) : ReachIn N S a c :=
  h.trans (ReachIn.head h.mem_right hc (ReachIn.refl hcS))

theorem ReachIn.symm (hN : SymmOracle N) {a b : α} (h : ReachIn N S a b) :
    ReachIn N S b a := by
  induction h with
  | refl h => exact ReachIn.refl h
  | @head a b c ha hb _ ih => exact ih.tail ((hN a b).mpr hb) ha

/-- If every cell reachable from `a` inside `S` lies in `U`, a chain inside `S`
from `a` is also a chain inside `U`. -/
theorem ReachIn.restrict {a x : α} (h : ReachIn N S a x) :
    (∀ y, ReachIn N S a y → y ∈ U) → ReachIn N U a x := by
  induction h with
  | refl h => exact fun hU => ReachIn.refl (hU _ (ReachIn.refl h))
  | @head a b c ha hb _ ih =>
      intro hU
      exact ReachIn.head (hU _ (ReachIn.refl ha)) hb
        (ih fun y hy => hU y (ReachIn.head ha hb hy))

/-- Chains starting outside a set that is closed under taking neighbors of
cells outside it stay outside it. -/
theorem ReachIn.avoids {a x : α}
    (h : ReachIn N S a x) (hcl : ∀ a ∈ S, a ∉ U → ∀ b ∈ N a, b ∉ U) :
    a ∉ U → x ∉ U := by
  induction h with
  | refl _ => exact id
  | @head a b c ha hb _ ih => exact fun hU => ih (hcl a ha hU b hb)

theorem bfsGroup_nil (N : α → List α) (unvisited group : Finset α) :
    bfsGroup N [] unvisited group = (group, unvisited) := by
  simp only [bfsGroup]

theorem bfsGroup_cons_mem (N : α → List α) {c : α} {unvisited : Finset α}
    (h : c ∈ unvisited) (rest : List α) (group : Finset α) :
    bfsGroup N (c :: rest) unvisited group
      = bfsGroup N (rest ++ (N c).filter (fun b => decide (b ∈ unvisited.erase c)))
          (unvisited.erase c) (insert c group) := by
  simp only [bfsGroup]
  rw [dif_pos h]

theorem bfsGroup_cons_not_mem (N : α → List α) {c : α} {unvisited : Finset α}
    (h : c ∉ unvisited) (rest : List α) (group : Finset α) :
    bfsGroup N (c :: rest) unvisited group = bfsGroup N rest unvisited group := by
  simp only [bfsGroup]
  rw [dif_neg h]

/-- The five running invariants of the inner BFS loop: the final unvisited set
shrinks; the final group is the starting group plus exactly the cells
removed from `unvisited`; every queued cell ends up visited; no oracle
neighbor of a visited cell remains unvisited; and every visited cell is
reachable from some queued cell by a chain inside `unvisited`. -/
theorem bfsGroup_spec (N : α → List α) (queue : List α)
    (unvisited group : Finset α) :
    (bfsGroup N queue unvisited group).2 ⊆ unvisited ∧
    (bfsGroup N queue unvisited group).1
      = group ∪ (unvisited \ (bfsGroup N queue unvisited group).2) ∧
    (∀ q ∈ queue, q ∉ (bfsGroup N queue unvisited group).2) ∧
    (∀ a ∈ unvisited, a ∉ (bfsGroup N queue unvisited group).2 →
      ∀ b ∈ N a, b ∉ (bfsGroup N queue unvisited group).2) ∧
    (∀ x ∈ unvisited, x ∉ (bfsGroup N queue unvisited group).2 →
      ∃ q ∈ queue, ReachIn N unvisited q x) := by
  induction queue, unvisited, group using bfsGroup.induct (N := N) with
  | case1 unvisited group =>
      rw [bfsGroup_nil]
      refine ⟨subset_rfl, by simp, by simp, ?_, ?_⟩
      · exact fun a ha hna _ _ => absurd ha hna
      · exact fun x hx hnx => absurd hx hnx
  | case2 unvisited group c rest h ih =>
      rw [bfsGroup_cons_mem N h]
      obtain ⟨ih1, ih2, ih3, ih4, ih5⟩ := ih
      set R := bfsGroup N
        (rest ++ (N c).filter (fun b => decide (b ∈ unvisited.erase c)))
        (unvisited.erase c) (insert c group) with hR
      have hcu : c ∉ R.2 := fun hc => (Finset.mem_erase.mp (ih1 hc)).1 rfl
      have hsub : R.2 ⊆ unvisited := ih1.trans (Finset.erase_subset _ _)
      refine ⟨hsub, ?_, ?_, ?_, ?_⟩
      · rw [ih2]
        have : unvisited \ R.2 = insert c (unvisited.erase c \ R.2) := by
          ext x
          simp only [Finset.mem_sdiff, Finset.mem_insert, Finset.mem_erase]
          constructor
          · rintro ⟨hxu, hxr⟩
            by_cases hxc : x = c
            · exact Or.inl hxc
            · exact Or.inr ⟨⟨hxc, hxu⟩, hxr⟩
          · rintro (rfl | ⟨⟨_, hxu⟩, hxr⟩)
            · exact ⟨h, hcu⟩
            · exact ⟨hxu, hxr⟩
        rw [this, Finset.union_insert, Finset.insert_union]
      · intro q hq
        rcases List.mem_cons.mp hq with rfl | hq
        · exact hcu
        · exact ih3 q (List.mem_append_left _ hq)
      · intro a ha hna b hb
        by_cases hac : a = c
        · subst hac
          by_cases hbu : b ∈ unvisited.erase a
          · exact ih3 b (List.mem_append_right _
              (List.mem_filter.mpr ⟨hb, by simpa using hbu⟩))
          · exact fun hbR => hbu (ih1 hbR)
        · exact ih4 a (Finset.mem_erase.mpr ⟨hac, ha⟩) hna b hb
      · intro x hx hnx
        by_cases hxc : x = c
        · subst hxc
          exact ⟨x, List.mem_cons_self x rest, ReachIn.refl hx⟩
        · obtain ⟨q, hq, hr⟩ :=
            ih5 x (Finset.mem_erase.mpr ⟨hxc, hx⟩) hnx
          have hr' : ReachIn N unvisited q x :=
            hr.mono (Finset.erase_subset _ _)
          rcases List.mem_append.mp hq with hq | hq
          · exact ⟨q, List.mem_cons_of_mem _ hq, hr'⟩
          · obtain ⟨hqN, _⟩ := List.mem_filter.mp hq
            exact ⟨c, List.mem_cons_self c rest, ReachIn.head h hqN hr'⟩
  | case3 unvisited group c rest h ih =>
      rw [bfsGroup_cons_not_mem N h]
      obtain ⟨ih1, ih2, ih3, ih4, ih5⟩ := ih
      refine ⟨ih1, ih2, ?_, ih4, ?_⟩
      · intro q hq
        rcases List.mem_cons.mp hq with rfl | hq
        · exact fun hc => h (ih1 hc)
        · exact ih3 q hq
      · intro x hx hnx
        obtain ⟨q, hq, hr⟩ := ih5 x hx hnx
        exact ⟨q, List.mem_cons_of_mem _ hq, hr⟩

/-- A BFS started on a single seed collects exactly the cells reachable from
the seed by chains inside the unvisited set. -/
theorem bfsGroup_seed_mem (N : α → List α) {s : α} {unvisited : Finset α}
    (hs : s ∈ unvisited) (x : α) :
    x ∈ (bfsGroup N [s] unvisited ∅).1 ↔ ReachIn N unvisited s x := by
  obtain ⟨h1, h2, h3, h4, h5⟩ := bfsGroup_spec N [s] unvisited ∅
  constructor
  · intro hx
    rw [h2] at hx
    simp only [Finset.empty_union, Finset.mem_sdiff] at hx
    obtain ⟨q, hq, hr⟩ := h5 x hx.1 hx.2
    rw [List.mem_singleton] at hq
    subst hq
    exact hr
  · intro hr
    have hsx : s ∉ (bfsGroup N [s] unvisited ∅).2 :=
      h3 s (List.mem_singleton_self s)
    have hx : x ∉ (bfsGroup N [s] unvisited ∅).2 := hr.avoids h4 hsx
    rw [h2]
    simp only [Finset.empty_union, Finset.mem_sdiff]
    exact ⟨hr.mem_right, hx⟩

theorem bfsGroup_seed_self (N : α → List α) {s : α} {unvisited : Finset α}
    (hs : s ∈ unvisited) : s ∈ (bfsGroup N [s] unvisited ∅).1 :=
  (bfsGroup_seed_mem N hs s).mpr (ReachIn.refl hs)

theorem bfsGroup_seed_unvisited (N : α → List α) (s : α) (unvisited : Finset α) :
    (bfsGroup N [s] unvisited ∅).2
      = unvisited \ (bfsGroup N [s] unvisited ∅).1 := by
  obtain ⟨h1, h2, -, -, -⟩ := bfsGroup_spec N [s] unvisited ∅
  ext x
  simp only [Finset.mem_sdiff]
  constructor
  · intro hx
    refine ⟨h1 hx, fun hg => ?_⟩
    rw [h2] at hg
    simp only [Finset.empty_union, Finset.mem_sdiff] at hg
    exact hg.2 hx
  · rintro ⟨hxu, hxg⟩
    by_contra hxr
    refine hxg ?_
    rw [h2]
    simp only [Finset.empty_union, Finset.mem_sdiff]
    exact ⟨hxu, hxr⟩

theorem groupLoop_sub_nonempty (N : α → List α) (order : List α) :
    ∀ unvisited : Finset α, ∀ g ∈ groupLoop N order unvisited,
      g.Nonempty ∧ g ⊆ unvisited := by
  induction order with
  | nil => intro unvisited g hg; simp [groupLoop] at hg
  | cons c rest ih =>
      intro unvisited g hg
      rw [groupLoop] at hg
      by_cases hc : c ∈ unvisited
      · rw [if_pos hc] at hg
        obtain ⟨h1, h2, -, -, -⟩ := bfsGroup_spec N [c] unvisited ∅
        by_cases hne : (bfsGroup N [c] unvisited ∅).1 = ∅
        · rw [if_pos hne] at hg
          obtain ⟨hgne, hsub⟩ := ih _ g hg
          exact ⟨hgne, hsub.trans h1⟩
        · rw [if_neg hne] at hg
          rcases List.mem_cons.mp hg with rfl | hg
          · refine ⟨Finset.nonempty_iff_ne_empty.mpr hne, ?_⟩
            rw [h2]
            simp only [Finset.empty_union]
            exact Finset.sdiff_subset
          · obtain ⟨hgne, hsub⟩ := ih _ g hg
            exact ⟨hgne, hsub.trans h1⟩
      · rw [if_neg hc] at hg
        exact ih _ g hg

theorem groupLoop_pairwise_disjoint (N : α → List α) (order : List α) :
    ∀ unvisited : Finset α,
      (groupLoop N order unvisited).Pairwise (fun g₁ g₂ => Disjoint g₁ g₂) := by
  induction order with
  | nil => intro unvisited; simp [groupLoop]
  | cons c rest ih =>
      intro unvisited
      rw [groupLoop]
      by_cases hc : c ∈ unvisited
      · rw [if_pos hc]
        by_cases hne : (bfsGroup N [c] unvisited ∅).1 = ∅
        · rw [if_pos hne]; exact ih _
        · rw [if_neg hne]
          refine List.Pairwise.cons ?_ (ih _)
          intro g hg
          have hsub : g ⊆ (bfsGroup N [c] unvisited ∅).2 :=
            (groupLoop_sub_nonempty N rest _ g hg).2
          rw [bfsGroup_seed_unvisited] at hsub
          exact Finset.disjoint_left.mpr fun {x} hx hxg =>
            (Finset.mem_sdiff.mp (hsub hxg)).2 hx
      · rw [if_neg hc]; exact ih _

theorem groupLoop_union (N : α → List α) (order : List α) :
    ∀ unvisited : Finset α, unvisited ⊆ order.toFinset →
      (groupLoop N order unvisited).foldr (fun g acc => g ∪ acc) ∅ = unvisited := by
  induction order with
  | nil =>
      intro unvisited hsub
      simp only [List.toFinset_nil, Finset.subset_empty] at hsub
      simp [groupLoop, hsub]
  | cons c rest ih =>
      intro unvisited hsub
      rw [groupLoop]
      by_cases hc : c ∈ unvisited
      · rw [if_pos hc]
        obtain ⟨h1, h2, h3, -, -⟩ := bfsGroup_spec N [c] unvisited ∅
        have hcr : c ∉ (bfsGroup N [c] unvisited ∅).2 :=
          h3 c (List.mem_singleton_self c)
        have hr2 : (bfsGroup N [c] unvisited ∅).2 ⊆ rest.toFinset := by
          intro x hx
          have hxo : x ∈ (c :: rest).toFinset := hsub (h1 hx)
          rw [List.toFinset_cons, Finset.mem_insert] at hxo
          rcases hxo with rfl | hxo
          · exact absurd hx hcr
          · exact hxo
        have hne : (bfsGroup N [c] unvisited ∅).1 ≠ ∅ :=
          Finset.ne_empty_of_mem (bfsGroup_seed_self N hc)
        have hg1 : (bfsGroup N [c] unvisited ∅).1 ⊆ unvisited := by
          rw [h2]
          simp only [Finset.empty_union]
          exact Finset.sdiff_subset
        rw [if_neg hne, List.foldr_cons, ih _ hr2, bfsGroup_seed_unvisited]
        exact Finset.union_sdiff_of_subset hg1
      · rw [if_neg hc]
        have : unvisited ⊆ rest.toFinset := by
          intro x hx
          have hxo : x ∈ (c :: rest).toFinset := hsub hx
          rw [List.toFinset_cons, Finset.mem_insert] at hxo
          rcases hxo with rfl | hxo
          · exact absurd hx hc
          · exact hxo
        exact ih _ this

theorem groupLoop_countP (N : α → List α) (order : List α) :
    ∀ unvisited : Finset α, unvisited ⊆ order.toFinset →
      ∀ x ∈ unvisited,
        (groupLoop N order unvisited).countP (fun g => decide (x ∈ g)) = 1 := by
  induction order with
  | nil =>
      intro unvisited hsub x hx
      simp only [List.toFinset_nil, Finset.subset_empty] at hsub
      subst hsub
      exact absurd hx (Finset.not_mem_empty x)
  | cons c rest ih =>
      intro unvisited hsub x hx
      rw [groupLoop]
      by_cases hc : c ∈ unvisited
      · rw [if_pos hc]
        obtain ⟨h1, -, h3, -, -⟩ := bfsGroup_spec N [c] unvisited ∅
        have hcr : c ∉ (bfsGroup N [c] unvisited ∅).2 :=
          h3 c (List.mem_singleton_self c)
        have hr2 : (bfsGroup N [c] unvisited ∅).2 ⊆ rest.toFinset := by
          intro y hy
          have hyo : y ∈ (c :: rest).toFinset := hsub (h1 hy)
          rw [List.toFinset_cons, Finset.mem_insert] at hyo
          rcases hyo with rfl | hyo
          · exact absurd hy hcr
          · exact hyo
        have hne : (bfsGroup N [c] unvisited ∅).1 ≠ ∅ :=
          Finset.ne_empty_of_mem (bfsGroup_seed_self N hc)
        rw [if_neg hne, List.countP_cons]
        by_cases hxg : x ∈ (bfsGroup N [c] unvisited ∅).1
        · have hxr : x ∉ (bfsGroup N [c] unvisited ∅).2 := by
            rw [bfsGroup_seed_unvisited]
            exact fun hmem => (Finset.mem_sdiff.mp hmem).2 hxg
          have : (groupLoop N rest (bfsGroup N [c] unvisited ∅).2).countP
              (fun g => decide (x ∈ g)) = 0 := by
            rw [List.countP_eq_zero]
            intro g hg
            have := (groupLoop_sub_nonempty N rest _ g hg).2
            simpa using fun hxin => hxr (this hxin)
          rw [this]
          simp [hxg]
        · have hxr : x ∈ (bfsGroup N [c] unvisited ∅).2 := by
            rw [bfsGroup_seed_unvisited, Finset.mem_sdiff]
            exact ⟨hx, hxg⟩
          rw [ih _ hr2 x hxr]
          simp [hxg]
      · rw [if_neg hc]
        have hsub' : unvisited ⊆ rest.toFinset := by
          intro y hy
          have hyo : y ∈ (c :: rest).toFinset := hsub hy
          rw [List.toFinset_cons, Finset.mem_insert] at hyo
          rcases hyo with rfl | hyo
          · exact absurd hy hc
          · exact hyo
        exact ih _ hsub' x hx

theorem subset_rest_toFinset {u : Finset α} {c : α} {rest : List α}
    (hsub : u ⊆ (c :: rest).toFinset) (hc : c ∉ u) : u ⊆ rest.toFinset := by
  intro x hx
  have hxo := hsub hx
  rw [List.toFinset_cons, Finset.mem_insert] at hxo
  rcases hxo with rfl | hxo
  · exact absurd hx hc
  · exact hxo

/-- Under a symmetric oracle, the groups produced by the outer loop are
exactly the connected components (chains inside the ambient set `F`) of the
still-unvisited seeds, provided the unvisited set is a union of such
components. -/
theorem groupLoop_mem_iff {N : α → List α} (hN : SymmOracle N) (F : Finset α)
    (order : List α) :
    ∀ unvisited : Finset α, unvisited ⊆ order.toFinset → unvisited ⊆ F →
      (∀ s ∈ unvisited, ∀ x, ReachIn N F s x → x ∈ unvisited) →
      ∀ g, g ∈ groupLoop N order unvisited ↔
        ∃ s ∈ unvisited, ∀ x, x ∈ g ↔ ReachIn N F s x := by
  induction order with
  | nil =>
      intro unvisited hsub hF hclosed g
      simp only [List.toFinset_nil, Finset.subset_empty] at hsub
      subst hsub
      simp [groupLoop]
  | cons c rest ih =>
      intro unvisited hsub hF hclosed g
      rw [groupLoop]
      by_cases hc : c ∈ unvisited
      · rw [if_pos hc]
        obtain ⟨h1, -, h3, -, -⟩ := bfsGroup_spec N [c] unvisited ∅
        have hA : ∀ x, x ∈ (bfsGroup N [c] unvisited ∅).1 ↔ ReachIn N F c x := by
          intro x
          rw [bfsGroup_seed_mem N hc]
          exact ⟨fun h => h.mono hF, fun h => h.restrict (hclosed c hc)⟩
        have hB := bfsGroup_seed_unvisited N c unvisited
        have hcr : c ∉ (bfsGroup N [c] unvisited ∅).2 :=
          h3 c (List.mem_singleton_self c)
        have hrest : (bfsGroup N [c] unvisited ∅).2 ⊆ rest.toFinset :=
          subset_rest_toFinset (h1.trans hsub) hcr
        have hclosed' : ∀ s ∈ (bfsGroup N [c] unvisited ∅).2,
            ∀ x, ReachIn N F s x → x ∈ (bfsGroup N [c] unvisited ∅).2 := by
          intro s hs x hsx
          have hsu : s ∈ unvisited := h1 hs
          have hxu : x ∈ unvisited := hclosed s hsu x hsx
          rw [hB, Finset.mem_sdiff] at hs ⊢
          refine ⟨hxu, fun hxg => hs.2 ?_⟩
          exact (hA s).mpr (((hA x).mp hxg).trans (ReachIn.symm hN hsx))
        have hne : (bfsGroup N [c] unvisited ∅).1 ≠ ∅ :=
          Finset.ne_empty_of_mem (bfsGroup_seed_self N hc)
        rw [if_neg hne]
        constructor
        · intro hg
          rcases List.mem_cons.mp hg with rfl | hg
          · exact ⟨c, hc, hA⟩
          · obtain ⟨s, hs, hchar⟩ :=
              (ih _ hrest (h1.trans hF) hclosed' g).mp hg
            exact ⟨s, h1 hs, hchar⟩
        · rintro ⟨s, hs, hchar⟩
          by_cases hsR : s ∈ (bfsGroup N [c] unvisited ∅).1
          · have hcs : ReachIn N F c s := (hA s).mp hsR
            have hgR : g = (bfsGroup N [c] unvisited ∅).1 := by
              ext x
              rw [hchar x, hA x]
              exact ⟨fun hsx => hcs.trans hsx,
                fun hcx => (ReachIn.symm hN hcs).trans hcx⟩
            rw [hgR]
            exact List.mem_cons_self _ _
          · have hsr2 : s ∈ (bfsGroup N [c] unvisited ∅).2 := by
              rw [hB, Finset.mem_sdiff]
              exact ⟨hs, hsR⟩
            exact List.mem_cons_of_mem _
              ((ih _ hrest (h1.trans hF) hclosed' g).mpr ⟨s, hsr2, hchar⟩)
      · rw [if_neg hc]
        exact ih _ (subset_rest_toFinset hsub hc) hF hclosed g

/-- Specialisation to the top-level call: under a symmetric oracle, `g` is a
group of `groupCells N cells` iff it is the connected component of one of the
input cells. -/
theorem groupCells_mem_iff {N : α → List α} (hN : SymmOracle N)
    (cells : List α) (g : Finset α) :
    g ∈ groupCells N cells ↔
      ∃ s ∈ cells.toFinset, ∀ x, x ∈ g ↔ ReachIn N cells.toFinset s x := by
  exact groupLoop_mem_iff hN cells.toFinset cells cells.toFinset subset_rfl
    subset_rfl (fun s _ x hx => hx.mem_right) g

theorem bfsStep_nil (N : α → List α) (unvisited group : Finset α) :
    bfsStep N ([], unvisited, group) = ([], unvisited, group) := rfl

theorem bfsStep_cons_mem (N : α → List α) {c : α} {unvisited : Finset α}
    (h : c ∈ unvisited) (rest : List α) (group : Finset α) :
    bfsStep N (c :: rest, unvisited, group)
      = (rest ++ (N c).filter (fun b => decide (b ∈ unvisited.erase c)),
          unvisited.erase c, insert c group) := by
  simp only [bfsStep, if_pos h]

theorem bfsStep_cons_not_mem (N : α → List α) {c : α} {unvisited : Finset α}
    (h : c ∉ unvisited) (rest : List α) (group : Finset α) :
    bfsStep N (c :: rest, unvisited, group) = (rest, unvisited, group) := by
  simp only [bfsStep, if_neg h]

/-- The inner BFS while-loop runs to completion: some finite number of
iterations of the loop body empties the queue, and the state then reached is
the one `bfsGroup` computes. -/
theorem bfsStep_run (N : α → List α) (queue : List α)
    (unvisited group : Finset α) :
    ∃ n : ℕ, ((bfsStep N)^[n] (queue, unvisited, group)).1 = [] ∧
      ((bfsStep N)^[n] (queue, unvisited, group)).2.1
        = (bfsGroup N queue unvisited group).2 ∧
      ((bfsStep N)^[n] (queue, unvisited, group)).2.2
        = (bfsGroup N queue unvisited group).1 := by
  induction queue, unvisited, group using bfsGroup.induct (N := N) with
  | case1 unvisited group =>
      refine ⟨0, rfl, ?_, ?_⟩
      · rw [bfsGroup_nil, Function.iterate_zero_apply]
      · rw [bfsGroup_nil, Function.iterate_zero_apply]
  | case2 unvisited group c rest h ih =>
      obtain ⟨n, hn1, hn2, hn3⟩ := ih
      refine ⟨n + 1, ?_, ?_, ?_⟩
      · rw [Function.iterate_succ_apply, bfsStep_cons_mem N h]
        exact hn1
      · rw [Function.iterate_succ_apply, bfsStep_cons_mem N h,
          bfsGroup_cons_mem N h]
        exact hn2
      · rw [Function.iterate_succ_apply, bfsStep_cons_mem N h,
          bfsGroup_cons_mem N h]
        exact hn3
  | case3 unvisited group c rest h ih =>
      obtain ⟨n, hn1, hn2, hn3⟩ := ih
      refine ⟨n + 1, ?_, ?_, ?_⟩
      · rw [Function.iterate_succ_apply, bfsStep_cons_not_mem N h]
        exact hn1
      · rw [Function.iterate_succ_apply, bfsStep_cons_not_mem N h,
          bfsGroup_cons_not_mem N h]
        exact hn2
      · rw [Function.iterate_succ_apply, bfsStep_cons_not_mem N h,
          bfsGroup_cons_not_mem N h]
        exact hn3

theorem mem_foldr_union {x : α} : ∀ l : List (Finset α),
    x ∈ l.foldr (fun g acc => g ∪ acc) ∅ ↔ ∃ g ∈ l, x ∈ g := by
  intro l
  induction l with
  | nil => simp
  | cons g rest ih =>
      simp only [List.foldr_cons, Finset.mem_union, ih, List.mem_cons]
      constructor
      · rintro (hx | ⟨g', hg', hx⟩)
        · exact ⟨g, Or.inl rfl, hx⟩
        · exact ⟨g', Or.inr hg', hx⟩
      · rintro ⟨g', (rfl | hg'), hx⟩
        · exact Or.inl hx
        · exact Or.inr ⟨g', hg', hx⟩

end BFSLemmas

section SquareGridLemmas

theorem grid_size_pos (r : ℕ) : 0 < grid_size r := by
  rw [grid_size]
  positivity

theorem truncQ_of_nonneg {q : ℚ} (h : 0 ≤ q) : truncQ q = ⌊q⌋ := by
  rw [truncQ, if_pos h]

theorem truncQ_of_neg {q : ℚ} (h : q < 0) : truncQ q = ⌈q⌉ := by
  rw [truncQ, if_neg (not_le.mpr h)]

/-- Truncation toward zero sends the whole open interval `(-1, 1)` to `0`:
this is what makes the code's grid cell `0` twice as wide as the others. -/
theorem truncQ_eq_zero {q : ℚ} (h : |q| < 1) : truncQ q = 0 := by
  obtain ⟨h₁, h₂⟩ := abs_lt.mp h
  rw [truncQ]
  split_ifs with h0
  · exact Int.floor_eq_zero_iff.mpr ⟨h0, h₂⟩
  · exact Int.ceil_eq_zero_iff.mpr ⟨h₁, le_of_lt (not_le.mp h0)⟩

theorem mem_intRange {k : ℕ} {d : ℤ} : d ∈ intRange k ↔ -(k : ℤ) ≤ d ∧ d ≤ k := by
  simp only [intRange, List.mem_map, List.mem_range]
  constructor
  · rintro ⟨i, hi, rfl⟩
    omega
  · rintro ⟨h₁, h₂⟩
    exact ⟨(d + k).toNat, by omega, by omega⟩

/-- Membership characterisation of `square_grid_neighbors`: the returned
strings are exactly the encodings of the grid cells at Manhattan distance at
most `k` from `(grid_x, grid_y)`. -/
theorem mem_square_grid_neighbors {x y : ℤ} {k : ℕ} {s : String} :
    s ∈ square_grid_neighbors x y k ↔
      ∃ a b : ℤ, (a - x).natAbs + (b - y).natAbs ≤ k ∧ s = encode2 a b := by
  simp only [square_grid_neighbors, List.mem_flatMap, List.mem_map,
    List.mem_filter, mem_intRange, decide_eq_true_eq]
  constructor
  · rintro ⟨dx, ⟨hdx₁, hdx₂⟩, dy, ⟨⟨hdy₁, hdy₂⟩, hdist⟩, rfl⟩
    refine ⟨x + dx, y + dy, ?_, rfl⟩
    have e₁ : x + dx - x = dx := by ring
    have e₂ : y + dy - y = dy := by ring
    rw [e₁, e₂]
    exact hdist
  · rintro ⟨a, b, hdist, rfl⟩
    refine ⟨a - x, ⟨by omega, by omega⟩, b - y, ⟨⟨by omega, by omega⟩, hdist⟩, ?_⟩
    have e₁ : x + (a - x) = a := by ring
    have e₂ : y + (b - y) = b := by ring
    rw [e₁, e₂]

theorem encode2_self_mem (x y : ℤ) (k : ℕ) :
    encode2 x y ∈ square_grid_neighbors x y k :=
  mem_square_grid_neighbors.mpr ⟨x, y, by simp, rfl⟩

theorem div_grid_size_abs_lt_one {r : ℕ} {x : ℚ} (hl : -grid_size r < x)
    (hr : x < grid_size r) : |x / grid_size r| < 1 := by
  have hpos := grid_size_pos r
  rw [abs_div, abs_of_pos hpos, div_lt_one hpos]
  exact abs_lt.mpr ⟨hl, hr⟩

theorem groupCells_union {α : Type*} [DecidableEq α] (N : α → List α)
    (cells : List α) :
    (groupCells N cells).foldr (fun g acc => g ∪ acc) ∅ = cells.toFinset :=
  groupLoop_union N cells cells.toFinset subset_rfl

end SquareGridLemmas

section Claims

/-- **C1.** For every finite input cell set and every one-step adjacency
oracle, the BFS grouping returns a list of non-empty groups that partitions
the input exactly: every input cell belongs to exactly one group, the groups
are pairwise disjoint, their union equals the input set, and no cell outside
the input set ever appears in any group even when the oracle returns cells
outside it (each group is contained in the input set). -/
theorem groupCells_partitions_input {α : Type*} [DecidableEq α]
    (N : α → List α) (cells : List α) :
    (∀ g ∈ groupCells N cells, g.Nonempty ∧ g ⊆ cells.toFinset) ∧
    (groupCells N cells).Pairwise (fun g₁ g₂ => Disjoint g₁ g₂) ∧
    (groupCells N cells).foldr (fun g acc => g ∪ acc) ∅ = cells.toFinset ∧
    (∀ x ∈ cells.toFinset,
      (groupCells N cells).countP (fun g => decide (x ∈ g)) = 1) :=
  ⟨groupLoop_sub_nonempty N cells cells.toFinset,
    groupLoop_pairwise_disjoint N cells cells.toFinset,
    groupLoop_union N cells cells.toFinset subset_rfl,
    groupLoop_countP N cells cells.toFinset subset_rfl⟩

/-- **C7.** For every oracle, grouping the empty cell set returns the empty
list of groups (and is not an error: `groupCells` is total). -/
theorem groupCells_empty {α : Type*} [DecidableEq α] (N : α → List α) :
    groupCells N ([] : List α) = [] := rfl

/-- **C8.** For every grid coordinate pair `(x, y)` and every `k ≥ 0`, the
square-grid neighbors function returns exactly (the encodings of) the grid
cells whose Manhattan distance from `(x, y)` is at most `k`, and the result
includes the cell `(x, y)` itself. -/
theorem square_grid_neighbors_manhattan (x y : ℤ) (k : ℕ) :
    (∀ s, s ∈ square_grid_neighbors x y k ↔
      ∃ a b : ℤ, (a - x).natAbs + (b - y).natAbs ≤ k ∧ s = encode2 a b) ∧
    encode2 x y ∈ square_grid_neighbors x y k :=
  ⟨fun _ => mem_square_grid_neighbors, encode2_self_mem x y k⟩

/-- **C4 (counterexample).** `square_grid_index` does not implement the
floor-based mapping of the claim for negative longitudes: at
`lat = 0`, `lng = -1/20`, `resolution = 0` the code truncates `-1/2` toward
zero and returns the encoding of `(0, 0)` rather than of `(⌊-1/2⌋, 0) = (-1, 0)`. -/
theorem square_grid_index_not_floor :
    square_grid_index 0 (-1/20 : ℚ) 0
      ≠ encode3 ⌊(-1/20 : ℚ) / grid_size 0⌋ ⌊(0 : ℚ) / grid_size 0⌋ 0 := by
  have hq : (-1/20 : ℚ) / grid_size 0 = -1/2 := by
    rw [grid_size]
    norm_num
  have h1 : truncQ ((-1/20 : ℚ) / grid_size 0) = 0 := by
    rw [hq, truncQ_of_neg (by norm_num)]
    norm_num
  have h2 : truncQ ((0 : ℚ) / grid_size 0) = 0 := by
    rw [zero_div, truncQ_of_nonneg le_rfl, Int.floor_zero]
  have h3 : ⌊(-1/20 : ℚ) / grid_size 0⌋ = -1 := by
    rw [hq]
    norm_num
  have h4 : ⌊(0 : ℚ) / grid_size 0⌋ = 0 := by
    rw [zero_div, Int.floor_zero]
  rw [square_grid_index, h1, h2, h3, h4]
  decide

/-- **C4 (amended).** `square_grid_index` encodes the pair obtained by
truncating `lng / cell_size` and `lat / cell_size` toward zero (Python
`int()`); this agrees with the claimed floor-based mapping whenever both
coordinates are non-negative, but not for negative ones. -/
theorem square_grid_index_floor_of_nonneg (lat lng : ℚ) (r : ℕ)
    (hlat : 0 ≤ lat) (hlng : 0 ≤ lng) :
    square_grid_index lat lng r
      = encode3 ⌊lng / grid_size r⌋ ⌊lat / grid_size r⌋ r := by
  have hpos := grid_size_pos r
  rw [square_grid_index,
    truncQ_of_nonneg (div_nonneg hlng hpos.le),
    truncQ_of_nonneg (div_nonneg hlat hpos.le)]

theorem square_grid_index_floor_of_nonneg_witness :
    (0 : ℚ) ≤ 0 ∧
    square_grid_index 0 0 5
      = encode3 ⌊(0 : ℚ) / grid_size 5⌋ ⌊(0 : ℚ) / grid_size 5⌋ 5 :=
  ⟨le_rfl, square_grid_index_floor_of_nonneg 0 0 5 le_rfl le_rfl⟩

/-- **C5 (counterexample).** The identifier produced by `square_grid_index`
is never an element of the neighbor set computed by `square_grid_neighbors`
for that cell's grid coordinates: the former carries a `_resolution` suffix,
the latter does not.  Concretely at `lat = lng = 0`, `resolution = 8`,
`k = 0`, whose grid coordinates are `(0, 0)`. -/
theorem square_grid_index_not_mem_neighbors :
    square_grid_index 0 0 8 ∉
      square_grid_neighbors (truncQ ((0 : ℚ) / grid_size 8))
        (truncQ ((0 : ℚ) / grid_size 8)) 0 := by
  have h0 : truncQ ((0 : ℚ) / grid_size 8) = 0 := by
    rw [zero_div, truncQ_of_nonneg le_rfl, Int.floor_zero]
  have hidx : square_grid_index 0 0 8 = encode3 0 0 8 := by
    rw [square_grid_index, h0]
  rw [hidx, h0]
  decide

/-- **C5 (amended).** The two functions agree at the grid-coordinate level:
for every point and resolution, re-encoding the grid coordinates computed by
`square_grid_index` in the neighbor function's (resolution-free) format
yields a member of `square_grid_neighbors` of those coordinates for every
`k ≥ 0`; the two identifier encodings themselves differ by the resolution
suffix. -/
theorem square_grid_coordinate_consistent (lat lng : ℚ) (r k : ℕ) :
    encode2 (truncQ (lng / grid_size r)) (truncQ (lat / grid_size r))
      ∈ square_grid_neighbors (truncQ (lng / grid_size r))
          (truncQ (lat / grid_size r)) k :=
  encode2_self_mem _ _ k

/-- **C10.** For every resolution, any two points whose latitudes and
longitudes all lie strictly between `-cell_size(r)` and `+cell_size(r)` map
to the same square-grid identifier — even when their coordinates have
opposite signs: truncation toward zero collapses the whole open interval
around zero onto grid coordinate `0`, making cell `0` twice as wide as every
other cell. -/
theorem square_grid_origin_cell_double (r : ℕ) (lat₁ lng₁ lat₂ lng₂ : ℚ)
    (h₁ : -grid_size r < lng₁) (h₂ : lng₁ < grid_size r)
    (h₃ : -grid_size r < lat₁) (h₄ : lat₁ < grid_size r)
    (h₅ : -grid_size r < lng₂) (h₆ : lng₂ < grid_size r)
    (h₇ : -grid_size r < lat₂) (h₈ : lat₂ < grid_size r) :
    square_grid_index lat₁ lng₁ r = square_grid_index lat₂ lng₂ r := by
  rw [square_grid_index, square_grid_index,
    truncQ_eq_zero (div_grid_size_abs_lt_one h₁ h₂),
    truncQ_eq_zero (div_grid_size_abs_lt_one h₃ h₄),
    truncQ_eq_zero (div_grid_size_abs_lt_one h₅ h₆),
    truncQ_eq_zero (div_grid_size_abs_lt_one h₇ h₈)]

theorem square_grid_origin_cell_double_witness :
    -grid_size 0 < (1/20 : ℚ) ∧ (1/20 : ℚ) < grid_size 0 ∧
    -grid_size 0 < (-1/20 : ℚ) ∧ (-1/20 : ℚ) < grid_size 0 ∧
    square_grid_index (1/20) (1/20) 0 = square_grid_index (-1/20) (-1/20) 0 :=
  ⟨by rw [grid_size]; norm_num, by rw [grid_size]; norm_num,
    by rw [grid_size]; norm_num, by rw [grid_size]; norm_num,
    square_grid_origin_cell_double 0 (1/20) (1/20) (-1/20) (-1/20)
      (by rw [grid_size]; norm_num) (by rw [grid_size]; norm_num)
      (by rw [grid_size]; norm_num) (by rw [grid_size]; norm_num)
      (by rw [grid_size]; norm_num) (by rw [grid_size]; norm_num)
      (by rw [grid_size]; norm_num) (by rw [grid_size]; norm_num)⟩

/-- **C2 (counterexample).** With a non-symmetric oracle
(`directedOracle 0 = [1]`, `directedOracle 1 = []`) and input order `[1, 0]`,
there is a chain from `0` to `1` inside the input set `{0, 1}`, yet `0` and
`1` are in different groups: the claimed equivalence fails as stated for
arbitrary oracles. -/
theorem sameGroup_iff_chain_counterexample :
    ¬ ((∃ g ∈ groupCells directedOracle [1, 0], 0 ∈ g ∧ 1 ∈ g) ↔
        ReachIn directedOracle ([1, 0] : List ℕ).toFinset 0 1) := by
  have hg : groupCells directedOracle [1, 0] = [{1}, {0}] := by
    simp [groupCells, groupLoop, bfsGroup, directedOracle]
  intro h
  have hr : ReachIn directedOracle ([1, 0] : List ℕ).toFinset 0 1 :=
    ReachIn.head (by decide) (by decide) (ReachIn.refl (by decide))
  obtain ⟨g, hgmem, h0, h1⟩ := h.mpr hr
  rw [hg] at hgmem
  rcases List.mem_cons.mp hgmem with rfl | hgmem
  · exact absurd h0 (by decide)
  · rcases List.mem_cons.mp hgmem with rfl | hgmem
    · exact absurd h1 (by decide)
    · exact absurd hgmem (List.not_mem_nil g)

/-- **C2 (amended).** Under a *symmetric* oracle (which the hexagonal
`k_ring` adjacency of the source is), two input cells are in the same group
iff a finite chain inside the input set connects them; in particular a cell
whose neighbors within the input set are only itself forms the singleton
group `{c}`. -/
theorem sameGroup_iff_chain_of_symm {α : Type*} [DecidableEq α]
    {N : α → List α} (hN : SymmOracle N) (cells : List α) :
    (∀ a ∈ cells.toFinset, ∀ b ∈ cells.toFinset,
      ((∃ g ∈ groupCells N cells, a ∈ g ∧ b ∈ g) ↔
        ReachIn N cells.toFinset a b)) ∧
    (∀ c, (N c).toFinset ∩ cells.toFinset = {c} →
      ({c} : Finset α) ∈ groupCells N cells) := by
  constructor
  · intro a ha b hb
    constructor
    · rintro ⟨g, hg, hag, hbg⟩
      obtain ⟨s, -, hchar⟩ := (groupCells_mem_iff hN cells g).mp hg
      exact (ReachIn.symm hN ((hchar a).mp hag)).trans ((hchar b).mp hbg)
    · intro hr
      have hmem : a ∈ (groupCells N cells).foldr (fun g acc => g ∪ acc) ∅ := by
        rw [groupCells_union N cells]
        exact ha
      obtain ⟨g, hg, hag⟩ := (mem_foldr_union (groupCells N cells)).mp hmem
      obtain ⟨s, -, hchar⟩ := (groupCells_mem_iff hN cells g).mp hg
      exact ⟨g, hg, hag, (hchar b).mpr (((hchar a).mp hag).trans hr)⟩
  · intro c hcap
    have hcF : c ∈ cells.toFinset := by
      have hc : c ∈ (N c).toFinset ∩ cells.toFinset := by
        rw [hcap]
        exact Finset.mem_singleton_self c
      exact (Finset.mem_inter.mp hc).2
    have honly : ∀ a x, ReachIn N cells.toFinset a x → a = c → x = c := by
      intro a x h
      induction h with
      | refl _ => exact id
      | @head a b x _ hb hr ih =>
          rintro rfl
          have hbF : b ∈ cells.toFinset := hr.mem_left
          have hbc : b ∈ (N a).toFinset ∩ cells.toFinset :=
            Finset.mem_inter.mpr ⟨List.mem_toFinset.mpr hb, hbF⟩
          rw [hcap] at hbc
          exact ih (Finset.mem_singleton.mp hbc)
    have hmem : c ∈ (groupCells N cells).foldr (fun g acc => g ∪ acc) ∅ := by
      rw [groupCells_union N cells]
      exact hcF
    obtain ⟨g, hg, hcg⟩ := (mem_foldr_union (groupCells N cells)).mp hmem
    obtain ⟨s, -, hchar⟩ := (groupCells_mem_iff hN cells g).mp hg
    have hcs : ReachIn N cells.toFinset c s := ReachIn.symm hN ((hchar c).mp hcg)
    have hsc : s = c := honly c s hcs rfl
    subst hsc
    have hgc : g = {s} := by
      ext x
      rw [Finset.mem_singleton, hchar x]
      constructor
      · intro hx
        exact honly s x hx rfl
      · rintro rfl
        exact ReachIn.refl hcF
    exact hgc ▸ hg

theorem sameGroup_iff_chain_of_symm_witness :
    SymmOracle exampleOracle ∧
    ((0 : Fin 5) ∈ ([0, 1, 2, 3, 4] : List (Fin 5)).toFinset) ∧
    ((2 : Fin 5) ∈ ([0, 1, 2, 3, 4] : List (Fin 5)).toFinset) ∧
    ((∃ g ∈ groupCells exampleOracle [0, 1, 2, 3, 4],
        (0 : Fin 5) ∈ g ∧ (2 : Fin 5) ∈ g) ↔
      ReachIn exampleOracle ([0, 1, 2, 3, 4] : List (Fin 5)).toFinset 0 2) :=
  ⟨by unfold SymmOracle; decide, by decide, by decide,
    (sameGroup_iff_chain_of_symm (by unfold SymmOracle; decide) [0, 1, 2, 3, 4]).1
      0 (by decide) 2 (by decide)⟩

/-- **C3 (counterexample).** The code removes a cell from the unvisited set
only when it is *dequeued*, not when it is enqueued: after processing `0`
under `fanoutOracle`, cells `1` and `2` are in the queue yet still in the
unvisited set, and after one more step the queue contains `2` twice. -/
theorem bfs_enqueue_counterexample :
    (bfsStep fanoutOracle ([0], {0, 1, 2}, ∅)).1 = [1, 2] ∧
    (1 : ℕ) ∈ (bfsStep fanoutOracle ([0], {0, 1, 2}, ∅)).2.1 ∧
    (2 : ℕ) ∈ (bfsStep fanoutOracle ([0], {0, 1, 2}, ∅)).2.1 ∧
    ((bfsStep fanoutOracle)^[2] ([0], {0, 1, 2}, ∅)).1.count 2 = 2 := by
  decide

/-- **C3 (amended).** A cell is removed from the unvisited set when it is
dequeued and found still unvisited — not when enqueued; enqueued neighbors
remain in the unvisited set, so a cell may occupy the queue more than once,
but the dequeue-time membership check still moves each unvisited cell into
the group exactly once (the final group is the starting group plus exactly
the cells removed from `unvisited`). -/
theorem bfs_removes_on_dequeue {α : Type*} [DecidableEq α] (N : α → List α)
    (c : α) (rest : List α) (unvisited group : Finset α) (h : c ∈ unvisited) :
    (bfsStep N (c :: rest, unvisited, group)).2.1 = unvisited.erase c ∧
    (∀ b ∈ (bfsStep N (c :: rest, unvisited, group)).1,
      b ∈ rest ∨ (b ∈ N c ∧ b ∈ unvisited.erase c)) ∧
    (bfsGroup N (c :: rest) unvisited group).2 ⊆ unvisited ∧
    (bfsGroup N (c :: rest) unvisited group).1
      = group ∪ (unvisited \ (bfsGroup N (c :: rest) unvisited group).2) := by
  obtain ⟨h1, h2, -, -, -⟩ := bfsGroup_spec N (c :: rest) unvisited group
  rw [bfsStep_cons_mem N h]
  refine ⟨rfl, ?_, h1, h2⟩
  intro b hb
  rcases List.mem_append.mp hb with hb | hb
  · exact Or.inl hb
  · obtain ⟨hbN, hbu⟩ := List.mem_filter.mp hb
    exact Or.inr ⟨hbN, by simpa using hbu⟩

theorem bfs_removes_on_dequeue_witness :
    (0 : ℕ) ∈ ({0, 1, 2} : Finset ℕ) ∧
    ((bfsStep fanoutOracle ([0], {0, 1, 2}, ∅)).2.1
        = ({0, 1, 2} : Finset ℕ).erase 0 ∧
      (∀ b ∈ (bfsStep fanoutOracle ([0], {0, 1, 2}, ∅)).1,
        b ∈ ([] : List ℕ) ∨
          (b ∈ fanoutOracle 0 ∧ b ∈ ({0, 1, 2} : Finset ℕ).erase 0)) ∧
      (bfsGroup fanoutOracle [0] {0, 1, 2} ∅).2 ⊆ {0, 1, 2} ∧
      (bfsGroup fanoutOracle [0] {0, 1, 2} ∅).1
        = ∅ ∪ ({0, 1, 2} \ (bfsGroup fanoutOracle [0] {0, 1, 2} ∅).2)) :=
  ⟨by decide, bfs_removes_on_dequeue fanoutOracle 0 [] {0, 1, 2} ∅ (by decide)⟩

/-- **C6 (counterexample).** Permutation invariance fails for a
non-symmetric oracle: with `directedOracle`, input order `[0, 1]` produces
the single group `{0, 1}` while the permuted order `[1, 0]` produces
`{1}` and `{0}`. -/
theorem groups_order_dependent :
    ([0, 1] : List ℕ).Perm [1, 0] ∧
    ({0, 1} : Finset ℕ) ∈ groupCells directedOracle [0, 1] ∧
    ({0, 1} : Finset ℕ) ∉ groupCells directedOracle [1, 0] := by
  refine ⟨by decide, ?_, ?_⟩
  · have h : groupCells directedOracle [0, 1] = [{1, 0}] := by
      simp [groupCells, groupLoop, bfsGroup, directedOracle]
    rw [h]
    decide
  · have h : groupCells directedOracle [1, 0] = [{1}, {0}] := by
      simp [groupCells, groupLoop, bfsGroup, directedOracle]
    rw [h]
    decide

/-- **C6 (amended).** Under a *symmetric* oracle, permuting the iteration
order of the input cells (without changing membership) leaves the collection
of resulting groups identical as a set of sets. -/
theorem groups_perm_invariant_of_symm {α : Type*} [DecidableEq α]
    {N : α → List α} (hN : SymmOracle N) {cells₁ cells₂ : List α}
    (hp : cells₁.Perm cells₂) :
    ∀ g, g ∈ groupCells N cells₁ ↔ g ∈ groupCells N cells₂ := by
  intro g
  rw [groupCells_mem_iff hN cells₁, groupCells_mem_iff hN cells₂,
    List.toFinset_eq_of_perm _ _ hp]

theorem groups_perm_invariant_of_symm_witness :
    SymmOracle exampleOracle ∧
    ([0, 1, 2, 3, 4] : List (Fin 5)).Perm [4, 3, 2, 1, 0] ∧
    (∀ g, g ∈ groupCells exampleOracle [0, 1, 2, 3, 4] ↔
      g ∈ groupCells exampleOracle [4, 3, 2, 1, 0]) :=
  ⟨by unfold SymmOracle; decide, by decide,
    groups_perm_invariant_of_symm (by unfold SymmOracle; decide) (by decide)⟩

/-- **C9.** For every oracle — cyclic adjacency included — the BFS
terminates: some finite number of iterations of the loop body empties the
working queue (reaching exactly the state the run computes), and each input
cell is added to exactly one group. -/
theorem bfs_terminates_and_adds_once {α : Type*} [DecidableEq α]
    (N : α → List α) (cells : List α) :
    (∀ (queue : List α) (unvisited group : Finset α), ∃ n : ℕ,
      ((bfsStep N)^[n] (queue, unvisited, group)).1 = [] ∧
      ((bfsStep N)^[n] (queue, unvisited, group)).2.2
        = (bfsGroup N queue unvisited group).1) ∧
    (∀ x ∈ cells.toFinset,
      (groupCells N cells).countP (fun g => decide (x ∈ g)) = 1) := by
  refine ⟨fun queue unvisited group => ?_,
    groupLoop_countP N cells cells.toFinset subset_rfl⟩
  obtain ⟨n, hn1, -, hn3⟩ := bfsStep_run N queue unvisited group
  exact ⟨n, hn1, hn3⟩

end Claims
